import Mathlib

/-!
Verification development for the retrieval memory engine of
`alter_ego_computer.py` (Alter_Ego repository).

Python strings are embedded as `List Char`; Python `int` as `Int`
(with `Nat` where the source value is a length or count); fallible
operations (file reads, hashing a file) as `Option`/`Except`; the
unbounded `while` loop of `chunk_text` as a fuel-indexed loop, so that
its non-termination on bad configurations is expressible.  External
collaborators (the Chroma vector store, `hashlib.sha1`, the
file system, the clock) are modelled by explicit state that the
embedded functions thread, with the modelling choice documented at
each definition.
-/

namespace AlterEgo

/-- Python `str` is embedded as a list of characters. -/
abbrev Str := List Char

/-! ## clean_text (alter_ego_computer.py lines 132-135) -/

/-- Step 1 of `clean_text`: `s.replace("\r\n", "\n")` — left-to-right,
non-overlapping replacement of CRLF by LF. -/
def replaceCRLF : Str → Str
  | [] => []
  | '\r' :: '\n' :: rest => '\n' :: replaceCRLF rest
  | c :: rest => c :: replaceCRLF rest

/-- The character class of the regex `[ \t]` in `clean_text`. -/
def isHTab (c : Char) : Bool := c = ' ' || c = '\t'

/-- Step 2 of `clean_text`: `re.sub(r"[ \t]+", " ", s)` — every maximal
run of spaces and tabs becomes a single space. -/
def collapseWS : Str → Str
  | [] => []
  | [c] => if isHTab c then [' '] else [c]
  | c :: d :: rest =>
    if isHTab c && isHTab d then collapseWS (d :: rest)
    else (if isHTab c then ' ' else c) :: collapseWS (d :: rest)

/-- The whitespace class of Python `str.strip()`:
space, tab, newline, carriage return, vertical tab, form feed. -/
def isPySpace (c : Char) : Bool :=
  c = ' ' || c = '\t' || c = '\n' || c = '\r' || c = Char.ofNat 11 || c = Char.ofNat 12

/-- Step 3 of `clean_text`: Python `str.strip()`. -/
def pyStrip (s : Str) : Str :=
  ((s.dropWhile isPySpace).reverse.dropWhile isPySpace).reverse

/-- `clean_text` (lines 132-135): replace CRLF, collapse horizontal
whitespace runs, strip. -/
def clean_text (s : Str) : Str := pyStrip (collapseWS (replaceCRLF s))

/-! ## Python slicing and chunk_text (lines 137-147) -/

/-- Clamp one bound of a Python slice `l[a:b]` into `0..n` where `n` is
the list length: a negative index counts from the end. -/
def pyIdx (n : Nat) (i : Int) : Nat :=
  if i < 0 then ((n : Int) + i).toNat else min i.toNat n

/-- Python slice `l[a:b]` (stride 1). -/
def pySlice (l : Str) (a b : Int) : Str :=
  (l.take (pyIdx l.length b)).drop (pyIdx l.length a)

/-- The `while i < len(txt)` loop of `chunk_text` (lines 143-146),
indexed by fuel: one unit of fuel per loop-condition check, `none` when
the fuel runs out before the loop exits.  The loop body appends
`txt[i:i+size]` and advances `i` by `size - overlap`, which may be a
non-positive step. -/
def chunkTextLoop (txt : Str) (size overlap : Int) : Nat → Int → Option (List Str)
  | 0, _ => none
  | fuel + 1, i =>
    if i < (txt.length : Int) then
      match chunkTextLoop txt size overlap fuel (i + (size - overlap)) with
      | none => none
      | some rest => some (pySlice txt i (i + size) :: rest)
    else
      some []

/-- `chunk_text(txt, size, overlap)` (lines 137-147): clean the text,
return it whole when it fits in one window, otherwise run the sliding
loop.  The loop gets `len + 1` fuel — enough for every configuration on
which the Python loop terminates, so a `none` result means the source
loops forever. -/
def chunk_text (txt : Str) (size overlap : Int) : Option (List Str) :=
  let t := clean_text txt
  if (t.length : Int) ≤ size then some [t]
  else chunkTextLoop t size overlap (t.length + 1) 0

/-- Total version of `chunk_text` used downstream by ingestion, where
the configuration is assumed valid (`overlap < size`), in which case the
fuel never runs out. -/
def chunkTextD (txt : Str) (size overlap : Int) : List Str :=
  (chunk_text txt size overlap).getD []

/-! ## Content identity (lines 115-122, 154-156) -/

/-- Hex digit character for a value in `0..15`. -/
def hexDigit (n : Nat) : Char :=
  if n < 10 then Char.ofNat (48 + n) else Char.ofNat (87 + n)

/-- Two hex characters for one byte. -/
def byteHex (b : Nat) : Str := [hexDigit (b / 16 % 16), hexDigit (b % 16)]

/-- Model of `sha1_bytes` (lines 115-118), i.e. of
`hashlib.sha1(b).hexdigest()`.  The library digest is external code; it
is modelled as a deterministic, injective hex encoding of the byte
string: determinism is exactly faithful, and injectivity on byte lists
is the idealisation of SHA-1's collision resistance, which the engine's
content-addressed identities rely on.  No other property of the digest
is used anywhere below. -/
def sha1_bytes (bs : List Nat) : Str := (bs.map byteHex).flatten

/-- Model of Python `text.encode("utf-8")`: the byte string of a text.
Modelled as the sequence of code points (an injective encoding, like
UTF-8; only determinism and injectivity of the encoding matter here). -/
def encodeText (s : Str) : List Nat := s.map Char.toNat

/-! ## Vector-store collections and upsert (Chroma adapter)

A Chroma collection is external state; the engine uses it through
`upsert(ids, ...)`, `query` and `count`.  A collection is modelled as an
association list from entry id to stored document, and `upsert` by its
documented contract: replace the entry with that id when present,
append a fresh entry otherwise. -/

/-- A collection: entry id to stored document, in insertion order. -/
abbrev Coll := List (Str × Str)

/-- Does the collection hold an entry with this id? -/
def hasKey (c : Coll) (id : Str) : Bool := c.any (fun e => e.1 = id)

/-- Upsert one `(id, document)` pair: replace by id, else append. -/
def upsert1 (c : Coll) (id doc : Str) : Coll :=
  if hasKey c id then c.map (fun e => if e.1 = id then (id, doc) else e)
  else c ++ [(id, doc)]

/-- Upsert a batch of `(id, document)` pairs in order, as one
`collection.upsert(ids=..., documents=...)` call. -/
def upsertBatch (c : Coll) (batch : List (Str × Str)) : Coll :=
  batch.foldl (fun acc e => upsert1 acc e.1 e.2) c

/-! ## Memory and state-note saves (lines 377-385)

`now_iso()` (lines 154-156) returns the wall clock formatted with
`timespec="seconds"`; the clock is external, so the timestamp string is
passed as an argument: two calls within the same wall-clock second
receive the same string. -/

/-- The entry id of `save_memory` (line 379):
`sha1_bytes(text.encode()) + ":" + now_iso()`. -/
def memId (text t : Str) : Str := sha1_bytes (encodeText text) ++ ':' :: t

/-- The entry id of `save_state_note` (line 384):
`sha1_bytes((text+subtype).encode()) + ":" + now_iso()`. -/
def stateId (text subtype t : Str) : Str :=
  sha1_bytes (encodeText (text ++ subtype)) ++ ':' :: t

/-- `save_memory` (lines 377-380) restricted to its effect on the `mem`
collection: upsert the text under its time-salted id.  `t` is the
string `now_iso()` returned at the call. -/
def save_memory (bank : Coll) (text t : Str) : Coll :=
  upsert1 bank (memId text t) text

/-- `save_state_note` (lines 382-385) restricted to its effect on the
`states` collection. -/
def save_state_note (bank : Coll) (text subtype t : Str) : Coll :=
  upsert1 bank (stateId text subtype t) text

/-! ## Retrieval assembly (retrieve_context, lines 268-286)

The two `coll.query` calls return ranked hits from the external store;
a hit is modelled by the fields `retrieve_context` reads from it: the
document and the `tag`/`src` drawn from its metadata. -/

/-- One ranked query hit as `retrieve_context` consumes it. -/
structure Hit where
  doc : Str
  tag : Str
  src : Str

/-- Lines 274-277: render one hit as
`f"[{tag}] {doc[:800]}\n(src: {src})"`. -/
def renderHit (h : Hit) : Str :=
  '[' :: h.tag ++ ']' :: ' ' :: h.doc.take 800 ++ '\n' :: "(src: ".data ++ h.src ++ [')']

/-- Lines 279-285: greedily keep each snippet whose length still fits
in the running total against the fixed budget of 6000 characters (a
snippet that does not fit is skipped and the scan continues). -/
def budgetJoin : List Str → Nat → List Str
  | [], _ => []
  | c :: rest, used =>
    if used + c.length ≤ 6000 then c :: budgetJoin rest (used + c.length)
    else budgetJoin rest used

/-- `retrieve_context` (lines 268-286) given the ranked hits the store
returned for the `docs` and `mem` collections: render each hit in
collection order, apply the character budget, and truncate to
`max(3, top_k)` snippets. -/
def retrieve_context (docsHits memHits : List Hit) (top_k : Nat) : List Str :=
  (budgetJoin ((docsHits ++ memHits).map renderHit) 0).take (max 3 top_k)

/-- Concatenated length of a list of snippets. -/
def sumLen (l : List Str) : Nat := (l.map List.length).sum

/-! ## Path filters (within_any_glob, lines 149-152; pathlib) -/

/-- Core of `fnmatch.fnmatch` on POSIX (where `os.path.normcase` is the
identity): `*` matches any run of characters, `?` any one character,
any other pattern character matches itself.  (Bracket classes are not
modelled; no glob in the engine's configuration uses them.)  Fuel is
`|s| + |p| + 1`, which the recursion never exhausts since every call
shrinks `|s| + |p|`. -/
def fnmatchAux : Nat → Str → Str → Bool
  | 0, _, _ => false
  | _ + 1, s, [] => s.isEmpty
  | fuel + 1, s, '*' :: pr =>
    fnmatchAux fuel s pr ||
      (match s with
       | [] => false
       | _ :: sr => fnmatchAux fuel sr ('*' :: pr))
  | fuel + 1, s, '?' :: pr =>
    (match s with
     | [] => false
     | _ :: sr => fnmatchAux fuel sr pr)
  | fuel + 1, s, c :: pr =>
    (match s with
     | [] => false
     | a :: sr => a = c && fnmatchAux fuel sr pr)

/-- `fnmatch(s, pat)`. -/
def fnmatch (s pat : Str) : Bool := fnmatchAux (s.length + pat.length + 1) s pat

/-- `within_any_glob` (lines 149-152): does the POSIX form of the path
match any of the patterns? Paths are modelled already in POSIX form. -/
def within_any_glob (path : Str) (patterns : List Str) : Bool :=
  patterns.any (fun pat => fnmatch path pat)

/-- `Path.name`: the part of the path after the last `/`. -/
def basename (p : Str) : Str := (p.reverse.takeWhile (fun c => c ≠ '/')).reverse

/-- `Path.suffix`: the extension of the basename including the dot —
from the last dot, provided that dot is neither the first nor the last
character of the basename (so `.env` and `a.` have no suffix). -/
def pathSuffix (p : Str) : Str :=
  let name := basename p
  match (name.reverse.findIdx? (fun c => c = '.')).map
      (fun k => name.length - 1 - k) with
  | none => []
  | some i => if 0 < i ∧ i < name.length - 1 then name.drop i else []

/-- Python `str.lower()` restricted to ASCII, as applied to suffixes. -/
def lowerStr (s : Str) : Str := s.map Char.toLower

/-- `p.suffix.lower()` as the ingestion and scan filters compute it. -/
def suffixLower (p : Str) : Str := lowerStr (pathSuffix p)

/-! ## Configuration (Config, lines 75-101) -/

/-- The slice of `Config` that the ingestion pipeline and the duplicate
scanner read. -/
structure Cfg where
  allowed_exts : List Str
  ignore_globs : List Str
  chunk_chars : Int
  chunk_overlap : Int

/-- The defaults of `Config` (lines 90-98, 83-84). -/
def defaultCfg : Cfg where
  allowed_exts :=
    [".txt".data, ".md".data, ".rst".data, ".py".data, ".js".data, ".ts".data,
     ".json".data, ".yaml".data, ".yml".data, ".toml".data, ".ini".data,
     ".cfg".data, ".css".data, ".html".data, ".sql".data, ".env".data,
     ".chaos".data, ".vas".data]
  ignore_globs :=
    ["**/.git/**".data, "**/__pycache__/**".data, "**/.venv/**".data,
     "**/node_modules/**".data, "**/*.lock".data, "**/*.log".data]
  chunk_chars := 1200
  chunk_overlap := 200

/-! ## File system view and ingestion (ingest_path, lines 289-334) -/

/-- One file as the engine observes it.  `readText` is the result of
`read_text_file` (`none` when the read raises despite the lenient
fallbacks); `bytes` is the byte content `sha1_file` would hash (`none`
when opening or reading the bytes raises); `mtime` is the modification
time. -/
structure FSFile where
  path : Str
  isFile : Bool
  readText : Option Str
  bytes : Option (List Nat)
  mtime : Int
deriving DecidableEq

/-- The eligibility filter shared by the directory walk of
`ingest_path` (lines 296-298) and by `scan_dupes` (lines 392, 400):
a regular file, not matching any ignore glob, with an allow-listed
lower-cased extension. -/
def eligibleFile (cfg : Cfg) (f : FSFile) : Bool :=
  f.isFile && !within_any_glob f.path cfg.ignore_globs &&
    cfg.allowed_exts.contains (suffixLower f.path)

/-- The root argument of `ingest_path`: a single file, or a directory
with the regular files its recursive walk yields, in walk order. -/
inductive IngestRoot where
  | file (f : FSFile)
  | dir (listing : List FSFile)

/-- Lines 290-299: the file set.  A single file is taken as is; a
directory walk keeps only eligible files. -/
def selectFiles (cfg : Cfg) : IngestRoot → List FSFile
  | .file f => [f]
  | .dir listing => listing.filter (fun f => eligibleFile cfg f)

/-- The `(id, document)` pairs one file contributes to the batch
(lines 313-325): chunk ids are `file_sha1 + ":" + chunk_index`.
(The metadata dict recorded alongside — path, hash, index, tag,
mtime — plays no part in the properties below and is omitted.) -/
def chunkDocs (cfg : Cfg) (txt : Str) (fileHash : Str) : List (Str × Str) :=
  (chunkTextD txt cfg.chunk_chars cfg.chunk_overlap).enum.map
    (fun e => (fileHash ++ ':' :: (Nat.repr e.1).data, e.2))

/-- The batch-building loop of `ingest_path` (lines 304-325).  A file
whose text read raises is logged and skipped (`try`/`except` around
`read_text_file`); a file empty after strip is skipped; but
`sha1_file(p)` (line 314) runs outside the `try`, so an exception while
hashing propagates and aborts the whole batch — modelled as
`Except.error` carrying the path. -/
def collectBatch (cfg : Cfg) : List FSFile → Except Str (List (Str × Str))
  | [] => .ok []
  | f :: rest =>
    match f.readText with
    | none => collectBatch cfg rest
    | some txt =>
      if pyStrip txt = [] then collectBatch cfg rest
      else
        match f.bytes with
        | none => .error f.path
        | some bs =>
          match collectBatch cfg rest with
          | .error e => .error e
          | .ok b => .ok (chunkDocs cfg txt (sha1_bytes bs) ++ b)

/-- `ingest_path` (lines 289-334) as a function of the docs collection:
select the files, build the batch, and upsert it; an empty file set or
an empty batch is a no-op. -/
def ingest_path (cfg : Cfg) (coll : Coll) (root : IngestRoot) : Except Str Coll :=
  let files := selectFiles cfg root
  if files.isEmpty then .ok coll
  else
    match collectBatch cfg files with
    | .error e => .error e
    | .ok batch => if batch.isEmpty then .ok coll else .ok (upsertBatch coll batch)

/-! ## Duplicate scanner (scan_dupes, lines 388-421) -/

/-- `dict.setdefault(k, []).append(v)` over an insertion-ordered dict:
append `v` to the group keyed `k`, creating the group at the end when
the key is new. -/
def addToGroups (k v : Str) : List (Str × List Str) → List (Str × List Str)
  | [] => [(k, [v])]
  | g :: rest =>
    if g.1 = k then (g.1, g.2 ++ [v]) :: rest else g :: addToGroups k v rest

/-- One grouping pass of `scan_dupes` over the walk of the data root:
files for which `keyOf` yields a key are grouped by it; the others are
passed over.  Instantiated below for the filename pass and for the
hash pass. -/
def foldGroups (keyOf : FSFile → Option Str) (fs : List FSFile) :
    List (Str × List Str) :=
  fs.foldl
    (fun acc f =>
      match keyOf f with
      | some k => addToGroups k f.path acc
      | none => acc) []

/-- The filename pass (lines 390-393): eligible files grouped by
basename. -/
def name_to_paths (cfg : Cfg) (fs : List FSFile) : List (Str × List Str) :=
  foldGroups (fun f => if eligibleFile cfg f then some (basename f.path) else none) fs

/-- Line 395: filename groups with at least two members. -/
def filename_dupes (cfg : Cfg) (fs : List FSFile) : List (Str × List Str) :=
  (name_to_paths cfg fs).filter (fun g => 2 ≤ g.2.length)

/-- The content pass (lines 398-405): eligible files grouped by the
digest of their bytes; a file whose hashing raises is skipped
(`try`/`except: pass`). -/
def hash_to_paths (cfg : Cfg) (fs : List FSFile) : List (Str × List Str) :=
  foldGroups
    (fun f =>
      if eligibleFile cfg f then (f.bytes.map sha1_bytes) else none) fs

/-- Line 406: content groups with at least two members. -/
def exact_dupes (cfg : Cfg) (fs : List FSFile) : List (Str × List Str) :=
  (hash_to_paths cfg fs).filter (fun g => 2 ≤ g.2.length)

/-! ## Consolidation planner (consolidate_files, lines 423-437) -/

/-- Stable insertion into a list sorted ascending by modification time:
the new pair goes before the first entry whose time is not smaller. -/
def insertByTime (x : Str × Int) : List (Str × Int) → List (Str × Int)
  | [] => [x]
  | y :: rest => if y.2 < x.2 then y :: insertByTime x rest else x :: y :: rest

/-- `times.sort(key=lambda x: x[1])` (line 429): Python's sort is a
stable ascending sort by the key, and a stable comparison sort is
determined extensionally by that, so it is modelled by stable insertion
sort. -/
def sortByTime (l : List (Str × Int)) : List (Str × Int) :=
  l.foldr insertByTime []

/-- The per-group body of `consolidate_files` (lines 426-437): pair
each path with its mtime, sort stably by mtime, keep the last of the
sorted list for `newest`, the first for `oldest`, and the
first-enumerated path for any other strategy (`keep_first`); propose
removing every other path of the group. -/
def consolidate_one (strategy : Str) (mtime : Str → Int) (paths : List Str) :
    Str × List Str :=
  let times := paths.map (fun p => (p, mtime p))
  let sorted := sortByTime times
  let keep :=
    if strategy = "newest".data then (sorted.getLastD ([], 0)).1
    else if strategy = "oldest".data then (sorted.headD ([], 0)).1
    else paths.headD []
  (keep, paths.filter (fun p => p ≠ keep))

/-- `consolidate_files` restricted to its pure planning part (the
`actions` list of lines 425-437): one `(name, keep, to_remove)` action
per filename group. -/
def consolidate_files (strategy : Str) (mtime : Str → Int)
    (groups : List (Str × List Str)) : List (Str × Str × List Str) :=
  groups.map (fun g => (g.1, consolidate_one strategy mtime g.2))

/-! ## Chunker lemmas -/

/-- With a non-positive step and a non-empty text, the chunking loop
never exits: whatever the fuel, it is exhausted. -/
theorem chunkTextLoop_none_of_nonpos_step (txt : Str) (size overlap : Int)
    (hstep : size - overlap ≤ 0) (hlen : 0 < (txt.length : Int)) :
    ∀ (fuel : Nat) (i : Int), i ≤ 0 → chunkTextLoop txt size overlap fuel i = none := by
  intro fuel
  induction fuel with
  | zero => intro i _; rfl
  | succ f ih =>
    intro i hi
    have hcond : i < (txt.length : Int) := lt_of_le_of_lt hi hlen
    simp only [chunkTextLoop, if_pos hcond]
    rw [ih (i + (size - overlap)) (by omega)]

/-- C1.  The spec requires `size ≤ overlap` to fail fast as a
configuration error, but `chunk_text` performs no such check: whenever
`overlap ≥ size ≥ 0` and the normalized text is longer than `size`, the
`while` loop advances `i` by the non-positive `size - overlap` and never
terminates — here, it returns `none` for every amount of fuel. -/
theorem c1_chunk_text_diverges_on_overlap_ge_size (txt : Str) (size overlap : Int)
    (fuel : Nat) (h0 : 0 ≤ size) (h1 : size ≤ overlap)
    (h2 : size < ((clean_text txt).length : Int)) :
    chunkTextLoop (clean_text txt) size overlap fuel 0 = none ∧
      chunk_text txt size overlap = none := by
  have hlen : 0 < ((clean_text txt).length : Int) := by omega
  have hloop := chunkTextLoop_none_of_nonpos_step (clean_text txt) size overlap
    (by omega) hlen
  refine ⟨hloop fuel 0 le_rfl, ?_⟩
  simp only [chunk_text]
  rw [if_neg (by omega)]
  exact hloop _ 0 le_rfl

/-- Witness for C1 at the concrete call `chunk_text("abcd", 2, 2)`. -/
theorem c1_chunk_text_diverges_witness :
    chunkTextLoop (clean_text "abcd".data) 2 2 100 0 = none ∧
      chunk_text "abcd".data 2 2 = none :=
  c1_chunk_text_diverges_on_overlap_ge_size "abcd".data 2 2 100
    (by decide) (by decide) (by decide)

/-- With a positive step, `len + 1 - i` fuel is enough for the loop to
exit on its own. -/
theorem chunkTextLoop_isSome (txt : Str) (size overlap : Int)
    (hstep : 1 ≤ size - overlap) :
    ∀ (fuel : Nat) (i : Int), 0 ≤ i → 1 ≤ fuel →
      txt.length + 1 - i.toNat ≤ fuel →
      (chunkTextLoop txt size overlap fuel i).isSome = true := by
  intro fuel
  induction fuel with
  | zero => intro i _ h1 _; omega
  | succ f ih =>
    intro i hi _ hf
    by_cases hlt : i < (txt.length : Int)
    · have h1f : 1 ≤ f := by omega
      have h2f : txt.length + 1 - (i + (size - overlap)).toNat ≤ f := by omega
      have hrec := ih (i + (size - overlap)) (by omega) h1f h2f
      simp only [chunkTextLoop, if_pos hlt]
      cases hrc : chunkTextLoop txt size overlap f (i + (size - overlap)) with
      | none => rw [hrc] at hrec; simp at hrec
      | some rest => simp
    · simp only [chunkTextLoop, if_neg hlt]
      rfl

/-- Whenever the loop returns a chunk list, chunk `k` of that list is
the window slice `txt[i + k*step : i + k*step + size]`. -/
theorem chunkTextLoop_get (txt : Str) (size overlap : Int) :
    ∀ (fuel : Nat) (i : Int) (l : List Str),
      chunkTextLoop txt size overlap fuel i = some l →
      ∀ (k : Nat) (hk : k < l.length),
        l.get ⟨k, hk⟩ =
          pySlice txt (i + (k : Int) * (size - overlap))
            (i + (k : Int) * (size - overlap) + size) := by
  intro fuel
  induction fuel with
  | zero => intro i l h; simp [chunkTextLoop] at h
  | succ f ih =>
    intro i l h k hk
    by_cases hlt : i < (txt.length : Int)
    · simp only [chunkTextLoop, if_pos hlt] at h
      cases hrc : chunkTextLoop txt size overlap f (i + (size - overlap)) with
      | none => rw [hrc] at h; simp at h
      | some rest =>
        rw [hrc] at h
        simp only [Option.some.injEq] at h
        subst h
        cases k with
        | zero => simp
        | succ k2 =>
          have hk2 : k2 < rest.length := by simpa using hk
          have hrec := ih (i + (size - overlap)) rest hrc k2 hk2
          have e1 : i + (size - overlap) + (k2 : Int) * (size - overlap) =
              i + ((k2 + 1 : Nat) : Int) * (size - overlap) := by
            push_cast
            ring
          simp only [List.get]
          rw [hrec, e1]
    · simp only [chunkTextLoop, if_neg hlt, Option.some.injEq] at h
      subst h
      simp at hk

/-- On a valid configuration the fixed fuel of `chunk_text` is never
exhausted, and the chunk list is non-empty. -/
theorem chunk_text_some (txt : Str) (size overlap : Int)
    (h0 : 0 ≤ overlap) (h1 : overlap < size) :
    ∃ l, chunk_text txt size overlap = some l ∧ l ≠ [] := by
  simp only [chunk_text]
  by_cases hle : (((clean_text txt).length : Int)) ≤ size
  · rw [if_pos hle]
    exact ⟨[clean_text txt], rfl, by simp⟩
  · rw [if_neg hle]
    have hsome := chunkTextLoop_isSome (clean_text txt) size overlap (by omega)
      ((clean_text txt).length + 1) 0 le_rfl (by omega) (by simp)
    obtain ⟨l, hl⟩ := Option.isSome_iff_exists.mp hsome
    refine ⟨l, hl, ?_⟩
    have hlen0 : (0 : Int) < ((clean_text txt).length : Int) := by omega
    simp only [chunkTextLoop, if_pos hlen0] at hl
    cases hrc : chunkTextLoop (clean_text txt) size overlap
        ((clean_text txt).length + 1 - 1) (0 + (size - overlap)) with
    | none =>
      rw [show (clean_text txt).length + 1 - 1 = (clean_text txt).length from rfl] at hrc
      rw [hrc] at hl
      simp at hl
    | some rest =>
      rw [show (clean_text txt).length + 1 - 1 = (clean_text txt).length from rfl] at hrc
      rw [hrc] at hl
      simp only [Option.some.injEq] at hl
      subst hl
      simp

/-- The chunk list of ingestion is non-empty on a valid configuration. -/
theorem chunkTextD_ne_nil (txt : Str) (size overlap : Int)
    (h0 : 0 ≤ overlap) (h1 : overlap < size) :
    chunkTextD txt size overlap ≠ [] := by
  obtain ⟨l, hl, hne⟩ := chunk_text_some txt size overlap h0 h1
  simp [chunkTextD, hl, hne]

/-- Taking the first `o` characters of the window slice starting at `a`
is the slice of the first `o` positions of that window. -/
theorem pySlice_take (t : Str) (a o s : Int)
    (ha : 0 ≤ a) (ho : 0 ≤ o) (hos : o ≤ s) :
    (pySlice t a (a + s)).take o.toNat = pySlice t a (a + o) := by
  simp only [pySlice, pyIdx]
  rw [if_neg (by omega), if_neg (by omega), if_neg (by omega)]
  rw [List.drop_take, List.drop_take, List.take_take]
  congr 1
  omega

/-- C9.  Overlap invariant of the chunker: with `0 ≤ overlap < size`,
the first `overlap` characters of chunk `i > 0` coincide with the last
`overlap` character positions of chunk `i-1`'s window region
`[(i-1)·step, (i-1)·step + size)` in the normalized source (window
positions clipped to the source, as the final window may extend past
its end), where `step = size - overlap`. -/
theorem c9_chunk_overlap_invariant (txt : Str) (size overlap : Int) (cs : List Str)
    (h0 : 0 ≤ overlap) (h1 : overlap < size)
    (hcs : chunk_text txt size overlap = some cs)
    (i : Nat) (hi : i < cs.length) (hpos : 0 < i) :
    (cs.get ⟨i, hi⟩).take overlap.toNat =
      pySlice (clean_text txt)
        (((i - 1 : Nat) : Int) * (size - overlap) + size - overlap)
        (((i - 1 : Nat) : Int) * (size - overlap) + size) := by
  simp only [chunk_text] at hcs
  by_cases hle : (((clean_text txt).length : Int)) ≤ size
  · rw [if_pos hle] at hcs
    simp only [Option.some.injEq] at hcs
    subst hcs
    simp at hi
    omega
  · rw [if_neg hle] at hcs
    have hget := chunkTextLoop_get (clean_text txt) size overlap
      ((clean_text txt).length + 1) 0 cs hcs i hi
    rw [hget]
    have hnn : (0 : Int) ≤ 0 + (i : Int) * (size - overlap) := by
      have := mul_nonneg (Int.natCast_nonneg i) (by omega : (0 : Int) ≤ size - overlap)
      omega
    rw [pySlice_take (clean_text txt) (0 + (i : Int) * (size - overlap)) overlap size
      hnn h0 (le_of_lt h1)]
    have hprev : ((i : Int)) = ((i - 1 : Nat) : Int) + 1 := by omega
    have eA : (0 : Int) + (i : Int) * (size - overlap) =
        ((i - 1 : Nat) : Int) * (size - overlap) + size - overlap := by
      rw [hprev]; ring
    rw [eA]
    have eB : ((i - 1 : Nat) : Int) * (size - overlap) + size - overlap + overlap =
        ((i - 1 : Nat) : Int) * (size - overlap) + size := by ring
    rw [eB]

/-- Witness for C9: `chunk_text("abcdef", 5, 3) = ["abcde", "cdef", "ef"]`,
and the first 3 characters of chunk 2 equal the characters the source
holds at the last 3 positions of chunk 1's window `[2, 7)` — here the
window is clipped by the end of the source. -/
theorem c9_chunk_overlap_invariant_witness :
    ((["abcde".data, "cdef".data, "ef".data] : List Str).get ⟨2, by decide⟩).take
        (Int.toNat 3) =
      pySlice (clean_text "abcdef".data)
        (((2 - 1 : Nat) : Int) * (5 - 3) + 5 - 3)
        (((2 - 1 : Nat) : Int) * (5 - 3) + 5) :=
  c9_chunk_overlap_invariant "abcdef".data 5 3
    ["abcde".data, "cdef".data, "ef".data] (by decide) (by decide) (by decide)
    2 (by decide) (by decide)

/-! ## Retrieval lemmas -/

/-- The greedy accumulation never lets the running total pass the
budget. -/
theorem budgetJoin_sum_le (l : List Str) :
    ∀ used : Nat, used ≤ 6000 → used + sumLen (budgetJoin l used) ≤ 6000 := by
  induction l with
  | nil =>
    intro used h
    simpa [budgetJoin, sumLen] using h
  | cons c rest ih =>
    intro used h
    by_cases hc : used + c.length ≤ 6000
    · have := ih (used + c.length) hc
      simp only [budgetJoin, if_pos hc, sumLen, List.map_cons, List.sum_cons] at this ⊢
      omega
    · simp only [budgetJoin, if_neg hc]
      exact ih used h

/-- A prefix of a snippet list has no greater concatenated length. -/
theorem sumLen_take_le (l : List Str) (n : Nat) : sumLen (l.take n) ≤ sumLen l := by
  induction l generalizing n with
  | nil => simp [sumLen]
  | cons c rest ih =>
    cases n with
    | zero => simp [sumLen]
    | succ m =>
      simp only [List.take_succ_cons, sumLen, List.map_cons, List.sum_cons]
      have := ih m
      simp only [sumLen] at this
      omega

/-- When some snippet fits the whole budget on its own, the greedy scan
keeps at least one snippet: a skip never raises the running total. -/
theorem budgetJoin_ne_nil (l : List Str) (h : ∃ c ∈ l, c.length ≤ 6000) :
    budgetJoin l 0 ≠ [] := by
  induction l with
  | nil => simp at h
  | cons c rest ih =>
    by_cases hc : 0 + c.length ≤ 6000
    · simp only [budgetJoin]
      rw [if_pos hc]
      simp
    · obtain ⟨d, hd, hdl⟩ := h
      rcases List.mem_cons.mp hd with rfl | hdr
      · omega
      · simp only [budgetJoin, if_neg hc]
        exact ih ⟨d, hdr, hdl⟩

/-- C2 (amended).  The snippets returned by `retrieve_context` always
have concatenated length within the fixed budget of 6000 characters,
and whenever at least one hit renders to a snippet of length at most
the budget, the result is non-empty.  (The stronger lower bound of
`min(3, available_matches)` snippets fails — see the counterexample:
`joined[:max(3, top_k)]` is an upper cap, not a lower guarantee.) -/
theorem c2_retrieve_context_budget_and_nonempty (docsHits memHits : List Hit)
    (top_k : Nat) :
    sumLen (retrieve_context docsHits memHits top_k) ≤ 6000 ∧
      ((∃ h ∈ docsHits ++ memHits, (renderHit h).length ≤ 6000) →
        retrieve_context docsHits memHits top_k ≠ []) := by
  constructor
  · have hb := budgetJoin_sum_le ((docsHits ++ memHits).map renderHit) 0 (by omega)
    have ht := sumLen_take_le (budgetJoin ((docsHits ++ memHits).map renderHit) 0)
      (max 3 top_k)
    simp only [retrieve_context]
    omega
  · intro hex
    obtain ⟨h, hmem, hlen⟩ := hex
    have hne := budgetJoin_ne_nil ((docsHits ++ memHits).map renderHit)
      ⟨renderHit h, List.mem_map_of_mem renderHit hmem, hlen⟩
    simp only [retrieve_context, ne_eq, List.take_eq_nil_iff]
    push_neg
    exact ⟨by omega, hne⟩

/-- Witness for C2 at a single short hit. -/
theorem c2_retrieve_context_witness :
    sumLen (retrieve_context [⟨"hello".data, "doc".data, "s".data⟩] [] 5) ≤ 6000 ∧
      retrieve_context [⟨"hello".data, "doc".data, "s".data⟩] [] 5 ≠ [] := by
  have h := c2_retrieve_context_budget_and_nonempty
    [⟨"hello".data, "doc".data, "s".data⟩] [] 5
  exact ⟨h.1, h.2 (by decide)⟩

/-- Counterexample for C2 as stated: three matches, every one of which
renders within the 6000-character budget (two of length 3000 and one of
length 14), yet `retrieve_context` returns only two snippets — fewer
than `min(3, available_matches) = 3`.  The greedy budget scan uses up
the budget on the first two snippets and the final cap `[:max(3,top_k)]`
only truncates, it never tops up. -/
theorem budgetJoin_two_large_one_small (c1 c2 c3 : Str) (h1 : c1.length = 3000)
    (h2 : c2.length = 3000) (h3 : c3.length = 14) :
    budgetJoin [c1, c2, c3] 0 = [c1, c2] := by
  simp only [budgetJoin, h1, h2, h3]
  norm_num

theorem c2_min_snippets_counterexample :
    (([⟨List.replicate 800 'a', "doc".data, List.replicate 2186 'b'⟩,
       ⟨List.replicate 800 'a', "doc".data, List.replicate 2186 'b'⟩,
       ⟨[], "doc".data, []⟩] : List Hit).map renderHit).all
        (fun c => c.length ≤ 6000) = true ∧
      (retrieve_context
        [⟨List.replicate 800 'a', "doc".data, List.replicate 2186 'b'⟩,
         ⟨List.replicate 800 'a', "doc".data, List.replicate 2186 'b'⟩,
         ⟨[], "doc".data, []⟩] [] 5).length = 2 := by
  have hd : ("doc".data : Str).length = 3 := rfl
  have hs : ("(src: ".data : Str).length = 6 := rfl
  have hlen1 : (renderHit ⟨List.replicate 800 'a', "doc".data,
      List.replicate 2186 'b'⟩).length = 3000 := by
    simp only [renderHit, List.length_append, List.length_cons, List.take_replicate,
      List.length_replicate, hd, hs]
    norm_num
  have hlen3 : (renderHit ⟨([] : Str), "doc".data, ([] : Str)⟩).length = 14 := by
    simp only [renderHit, List.length_append, List.length_cons, List.take_nil,
      List.length_nil, hd, hs]
  constructor
  · simp only [List.map_cons, List.map_nil, List.all_cons, List.all_nil, hlen1, hlen3]
    decide
  · have hb := budgetJoin_two_large_one_small _ _ _ hlen1 hlen1 hlen3
    simp only [retrieve_context, List.append_nil, List.map_cons, List.map_nil, hb]
    rw [List.length_take]
    norm_num

/-! ## Upsert lemmas -/

/-- Key membership, in proposition form. -/
theorem hasKey_iff (c : Coll) (k : Str) :
    hasKey c k = true ↔ ∃ e ∈ c, e.1 = k := by
  simp [hasKey]

/-- Upserting an id the collection holds replaces in place: the entry
count is unchanged. -/
theorem upsert1_length_of_hasKey (c : Coll) (id doc : Str)
    (h : hasKey c id = true) : (upsert1 c id doc).length = c.length := by
  simp [upsert1, h]

/-- Upserting a fresh id appends: the entry count grows by one. -/
theorem upsert1_length_of_not_hasKey (c : Coll) (id doc : Str)
    (h : hasKey c id = false) : (upsert1 c id doc).length = c.length + 1 := by
  simp [upsert1, h]

/-- After an upsert the id is present. -/
theorem hasKey_upsert1_self (c : Coll) (id doc : Str) :
    hasKey (upsert1 c id doc) id = true := by
  rw [hasKey_iff]
  by_cases hc : hasKey c id = true
  · obtain ⟨e, he, hek⟩ := (hasKey_iff c id).mp hc
    rw [upsert1, if_pos hc]
    exact ⟨(id, doc), List.mem_map.mpr ⟨e, he, by rw [if_pos hek]⟩, rfl⟩
  · rw [upsert1, if_neg hc]
    exact ⟨(id, doc), List.mem_append_right _ (by simp), rfl⟩

/-- Upsert keeps every id that was present. -/
theorem hasKey_upsert1_of_hasKey (c : Coll) (id doc k : Str)
    (h : hasKey c k = true) : hasKey (upsert1 c id doc) k = true := by
  rw [hasKey_iff]
  obtain ⟨e, he, hek⟩ := (hasKey_iff c k).mp h
  by_cases hc : hasKey c id = true
  · rw [upsert1, if_pos hc]
    by_cases heid : e.1 = id
    · exact ⟨(id, doc), List.mem_map.mpr ⟨e, he, by rw [if_pos heid]⟩, by
        rw [← hek, heid]⟩
    · exact ⟨e, List.mem_map.mpr ⟨e, he, by rw [if_neg heid]⟩, hek⟩
  · rw [upsert1, if_neg hc]
    exact ⟨e, List.mem_append_left _ he, hek⟩

/-- An id present after an upsert is the upserted id or was already
present. -/
theorem hasKey_upsert1_to (c : Coll) (id doc k : Str)
    (h : hasKey (upsert1 c id doc) k = true) : k = id ∨ hasKey c k = true := by
  rw [hasKey_iff] at h
  obtain ⟨e, he, hek⟩ := h
  by_cases hc : hasKey c id = true
  · rw [upsert1, if_pos hc] at he
    obtain ⟨e0, he0, hfe⟩ := List.mem_map.mp he
    by_cases heid : e0.1 = id
    · rw [if_pos heid] at hfe
      left
      rw [← hek, ← hfe]
    · rw [if_neg heid] at hfe
      right
      exact (hasKey_iff c k).mpr ⟨e0, he0, by rw [hfe]; exact hek⟩
  · rw [upsert1, if_neg hc] at he
    rcases List.mem_append.mp he with h1 | h2
    · right
      exact (hasKey_iff c k).mpr ⟨e, h1, hek⟩
    · left
      have he2 : e = (id, doc) := by simpa using h2
      rw [← hek, he2]

/-- C3 (amended).  The entry ids of `save_memory` and `save_state_note`
are distinct — and the second identical save appends a new entry rather
than replacing — whenever the two calls receive distinct
second-resolution timestamps from `now_iso()`.  (Two calls within the
same wall-clock second receive the same timestamp string and collide:
see the counterexample.) -/
theorem c3_time_salted_ids (bank : Coll) (text t1 t2 : Str)
    (hne : t1 ≠ t2) (hfresh : hasKey bank (memId text t2) = false) :
    memId text t1 ≠ memId text t2 ∧
      (∀ subtype, stateId text subtype t1 ≠ stateId text subtype t2) ∧
      (save_memory (save_memory bank text t1) text t2).length =
        (save_memory bank text t1).length + 1 := by
  have hid : memId text t1 ≠ memId text t2 := by
    intro h
    apply hne
    have h2 := List.append_cancel_left h
    exact (List.cons.injEq _ _ _ _).mp h2 |>.2
  refine ⟨hid, ?_, ?_⟩
  · intro subtype h
    apply hne
    have h2 := List.append_cancel_left h
    exact (List.cons.injEq _ _ _ _).mp h2 |>.2
  · have hfresh1 : hasKey (save_memory bank text t1) (memId text t2) = false := by
      cases hh : hasKey (save_memory bank text t1) (memId text t2) with
      | false => rfl
      | true =>
        rcases hasKey_upsert1_to bank (memId text t1) text (memId text t2) hh with
          h1 | h2
        · exact absurd h1.symm hid
        · rw [hfresh] at h2
          cases h2
    exact upsert1_length_of_not_hasKey _ _ _ hfresh1

/-- Witness for C3 at concrete timestamps one second apart. -/
theorem c3_time_salted_ids_witness :
    memId "hi".data "2025-01-01T00:00:00".data ≠
        memId "hi".data "2025-01-01T00:00:01".data ∧
      (∀ subtype, stateId "hi".data subtype "2025-01-01T00:00:00".data ≠
        stateId "hi".data subtype "2025-01-01T00:00:01".data) ∧
      (save_memory (save_memory [] "hi".data "2025-01-01T00:00:00".data) "hi".data
          "2025-01-01T00:00:01".data).length =
        (save_memory [] "hi".data "2025-01-01T00:00:00".data).length + 1 :=
  c3_time_salted_ids [] "hi".data "2025-01-01T00:00:00".data
    "2025-01-01T00:00:01".data (by decide) (by decide)

/-- Counterexample for C3 as stated: `now_iso()` has second resolution,
so two saves of identical text within the same wall-clock second build
the same entry id, and the second upsert replaces the first — the
collection holds one entry, not two.  The same happens for
`save_state_note`. -/
theorem c3_same_second_counterexample :
    (save_memory (save_memory [] "hi".data "2025-01-01T00:00:00".data)
        "hi".data "2025-01-01T00:00:00".data).length = 1 ∧
      (save_state_note (save_state_note [] "hi".data "boot".data
          "2025-01-01T00:00:00".data) "hi".data "boot".data
          "2025-01-01T00:00:00".data).length = 1 := by
  constructor
  · rfl
  · rfl

/-! ## Batch upsert lemmas -/

/-- A batch upsert keeps every id that was present. -/
theorem hasKey_upsertBatch_of_hasKey (batch : List (Str × Str)) :
    ∀ (c : Coll) (k : Str), hasKey c k = true →
      hasKey (upsertBatch c batch) k = true := by
  induction batch with
  | nil => intro c k h; simpa [upsertBatch] using h
  | cons e rest ih =>
    intro c k h
    simp only [upsertBatch, List.foldl_cons]
    exact ih (upsert1 c e.1 e.2) k (hasKey_upsert1_of_hasKey c e.1 e.2 k h)

/-- After a batch upsert every id of the batch is present. -/
theorem hasKey_upsertBatch_of_mem (batch : List (Str × Str)) :
    ∀ (c : Coll) (e : Str × Str), e ∈ batch →
      hasKey (upsertBatch c batch) e.1 = true := by
  induction batch with
  | nil =>
    intro c e h
    cases h
  | cons e0 rest ih =>
    intro c e h
    simp only [upsertBatch, List.foldl_cons]
    rcases List.mem_cons.mp h with rfl | hr
    · exact hasKey_upsertBatch_of_hasKey rest (upsert1 c e.1 e.2) e.1
        (hasKey_upsert1_self c e.1 e.2)
    · exact ih (upsert1 c e0.1 e0.2) e hr

/-- A batch of ids all already present replaces in place only: the
entry count is unchanged. -/
theorem upsertBatch_length_of_all_hasKey (batch : List (Str × Str)) :
    ∀ c : Coll, (∀ e ∈ batch, hasKey c e.1 = true) →
      (upsertBatch c batch).length = c.length := by
  induction batch with
  | nil => intro c _; rfl
  | cons e rest ih =>
    intro c h
    simp only [upsertBatch, List.foldl_cons]
    have hlen := upsert1_length_of_hasKey c e.1 e.2 (h e (by simp))
    have hrest := ih (upsert1 c e.1 e.2)
      (fun e2 he2 => hasKey_upsert1_of_hasKey c e.1 e.2 e2.1
        (h e2 (List.mem_cons_of_mem _ he2)))
    exact hrest.trans hlen

/-- C4.  Re-ingesting an unchanged file is idempotent: the batch of
chunk ids is computed from the content hash and the ordinal alone
(`collectBatch` returns `chunkDocs txt (sha1 bytes)`, identical on both
runs since the bytes are unchanged), and the document count of the
`docs` collection after the second run equals the count after the
first, since every id of the second batch is already present and upsert
replaces instead of inserting. -/
theorem c4_reingest_unchanged_file_idempotent (cfg : Cfg) (coll : Coll) (f : FSFile)
    (txt : Str) (bs : List Nat)
    (hr : f.readText = some txt) (hs : pyStrip txt ≠ []) (hb : f.bytes = some bs) :
    collectBatch cfg [f] = .ok (chunkDocs cfg txt (sha1_bytes bs)) ∧
      ∃ c1 c2, ingest_path cfg coll (.file f) = .ok c1 ∧
        ingest_path cfg c1 (.file f) = .ok c2 ∧ c2.length = c1.length := by
  have hcb : collectBatch cfg [f] = .ok (chunkDocs cfg txt (sha1_bytes bs)) := by
    simp only [collectBatch, hr, hb]
    rw [if_neg hs]
    simp [collectBatch]
  refine ⟨hcb, ?_⟩
  have hstep : ∀ c : Coll, ingest_path cfg c (.file f) =
      .ok (if (chunkDocs cfg txt (sha1_bytes bs)).isEmpty then c
           else upsertBatch c (chunkDocs cfg txt (sha1_bytes bs))) := by
    intro c
    simp [ingest_path, selectFiles, hcb]
    split
    · rfl
    · rfl
  by_cases hBe : (chunkDocs cfg txt (sha1_bytes bs)).isEmpty = true
  · exact ⟨coll, coll, by rw [hstep coll, if_pos hBe],
      by rw [hstep coll, if_pos hBe], rfl⟩
  · refine ⟨upsertBatch coll (chunkDocs cfg txt (sha1_bytes bs)),
      upsertBatch (upsertBatch coll (chunkDocs cfg txt (sha1_bytes bs)))
        (chunkDocs cfg txt (sha1_bytes bs)), ?_, ?_, ?_⟩
    · rw [hstep coll, if_neg hBe]
    · rw [hstep _, if_neg hBe]
    · exact upsertBatch_length_of_all_hasKey _ _
        (fun e he => hasKey_upsertBatch_of_mem _ coll e he)

/-- Witness for C4 at a concrete file. -/
theorem c4_reingest_witness :
    collectBatch defaultCfg
        [⟨"data/a.txt".data, true, some "hello".data, some [1, 2], 0⟩] =
      .ok (chunkDocs defaultCfg "hello".data (sha1_bytes [1, 2])) ∧
      ∃ c1 c2, ingest_path defaultCfg []
          (.file ⟨"data/a.txt".data, true, some "hello".data, some [1, 2], 0⟩) =
            .ok c1 ∧
        ingest_path defaultCfg c1
          (.file ⟨"data/a.txt".data, true, some "hello".data, some [1, 2], 0⟩) =
            .ok c2 ∧
        c2.length = c1.length :=
  c4_reingest_unchanged_file_idempotent defaultCfg []
    ⟨"data/a.txt".data, true, some "hello".data, some [1, 2], 0⟩
    "hello".data [1, 2] rfl (by decide) rfl

/-! ## Batch-building lemmas -/

/-- `collectBatch` over an appended file list: process the first part,
and when it does not abort, the second, concatenating the chunk
batches. -/
theorem collectBatch_append (cfg : Cfg) (l1 l2 : List FSFile) :
    collectBatch cfg (l1 ++ l2) =
      match collectBatch cfg l1 with
      | .error e => .error e
      | .ok b1 =>
        match collectBatch cfg l2 with
        | .error e => .error e
        | .ok b2 => .ok (b1 ++ b2) := by
  induction l1 with
  | nil =>
    simp only [List.nil_append, collectBatch]
    cases collectBatch cfg l2 with
    | error e => rfl
    | ok b2 => rfl
  | cons f rest ih =>
    cases hrt : f.readText with
    | none => simp [collectBatch, hrt, ih, List.append_eq]
    | some txt =>
      by_cases hst : pyStrip txt = []
      · simp [collectBatch, hrt, hst, ih, List.append_eq]
      · cases hb : f.bytes with
        | none => simp [collectBatch, hrt, hst, hb, List.append_eq]
        | some bs =>
          simp only [List.cons_append, collectBatch, hrt, hb, List.append_eq]
          rw [if_neg hst, if_neg hst, ih]
          cases h1 : collectBatch cfg rest with
          | error e => rfl
          | ok b1 =>
            cases h2 : collectBatch cfg l2 with
            | error e => rfl
            | ok b2 => simp [List.append_assoc]

/-- C5 (amended).  In the batch loop of `ingest_path`, a failure while
reading a file's text is caught, logged and only that file is skipped —
the batch is built exactly as if the file were absent; but a failure
while hashing the file's bytes (`sha1_file` runs outside the
`try`/`except`) propagates and aborts the whole batch. -/
theorem c5_read_failure_skips_hash_failure_aborts (cfg : Cfg) :
    (∀ (l1 l2 : List FSFile) (f : FSFile), f.readText = none →
        collectBatch cfg (l1 ++ f :: l2) = collectBatch cfg (l1 ++ l2)) ∧
      (∀ (l1 l2 : List FSFile) (f : FSFile) (txt : Str) (b1 : List (Str × Str)),
        f.readText = some txt → pyStrip txt ≠ [] → f.bytes = none →
        collectBatch cfg l1 = .ok b1 →
        collectBatch cfg (l1 ++ f :: l2) = .error f.path) := by
  constructor
  · intro l1 l2 f hf
    rw [collectBatch_append, collectBatch_append]
    cases collectBatch cfg l1 with
    | error e => rfl
    | ok b1 =>
      simp only [collectBatch, hf]
  · intro l1 l2 f txt b1 hf hst hb h1
    rw [collectBatch_append, h1]
    simp only [collectBatch, hf, hb]
    rw [if_neg hst]

/-- Witness for C5: a file whose read fails is dropped from the batch;
a file whose hashing fails aborts it. -/
theorem c5_read_failure_skips_witness :
    collectBatch defaultCfg
        ([] ++ ⟨"data/bad.txt".data, true, none, some [1], 0⟩ ::
          [⟨"data/good.txt".data, true, some "fine".data, some [7], 0⟩]) =
      collectBatch defaultCfg
        ([] ++ [⟨"data/good.txt".data, true, some "fine".data, some [7], 0⟩]) ∧
      collectBatch defaultCfg
        ([] ++ ⟨"data/bad2.txt".data, true, some "oops".data, none, 0⟩ ::
          [⟨"data/good.txt".data, true, some "fine".data, some [7], 0⟩]) =
      .error "data/bad2.txt".data := by
  constructor
  · exact (c5_read_failure_skips_hash_failure_aborts defaultCfg).1 []
      [⟨"data/good.txt".data, true, some "fine".data, some [7], 0⟩]
      ⟨"data/bad.txt".data, true, none, some [1], 0⟩ rfl
  · exact (c5_read_failure_skips_hash_failure_aborts defaultCfg).2 []
      [⟨"data/good.txt".data, true, some "fine".data, some [7], 0⟩]
      ⟨"data/bad2.txt".data, true, some "oops".data, none, 0⟩
      "oops".data [] rfl (by decide) rfl rfl

/-- Counterexample for C5 as stated: a batch of two files where the
first file's text read succeeds but hashing its bytes fails.  The whole
ingestion aborts with the exception — the second, healthy file is never
chunked or upserted — instead of skipping only the bad file. -/
theorem c5_hash_failure_aborts_counterexample :
    ingest_path defaultCfg []
        (.dir [⟨"data/bad.txt".data, true, some "oops".data, none, 0⟩,
               ⟨"data/good.txt".data, true, some "fine".data, some [7], 0⟩]) =
      .error "data/bad.txt".data := by rfl

/-- C6 (amended).  When `root_path` is a single file, `ingest_path`
takes the file set `{root_path}` without applying any filter: the
ignore globs and the extension allow-list are consulted only on the
directory branch of the walk, so a readable, non-empty single file is
chunked and upserted even when it fails the eligibility filter. -/
theorem c6_single_file_bypasses_filters (cfg : Cfg) (coll : Coll) (f : FSFile)
    (txt : Str) (bs : List Nat)
    (hr : f.readText = some txt) (hs : pyStrip txt ≠ []) (hb : f.bytes = some bs)
    (h0 : 0 ≤ cfg.chunk_overlap) (h1 : cfg.chunk_overlap < cfg.chunk_chars)
    (hfilters : eligibleFile cfg f = false) :
    selectFiles cfg (.file f) = [f] ∧
      chunkDocs cfg txt (sha1_bytes bs) ≠ [] ∧
      ingest_path cfg coll (.file f) =
        .ok (upsertBatch coll (chunkDocs cfg txt (sha1_bytes bs))) := by
  have hcb : collectBatch cfg [f] = .ok (chunkDocs cfg txt (sha1_bytes bs)) := by
    simp only [collectBatch, hr, hb]
    rw [if_neg hs]
    simp [collectBatch]
  have hchunks : chunkDocs cfg txt (sha1_bytes bs) ≠ [] := by
    have hne := chunkTextD_ne_nil txt cfg.chunk_chars cfg.chunk_overlap h0 h1
    simp only [chunkDocs, ne_eq, List.map_eq_nil_iff]
    intro henum
    exact hne (by simpa using henum)
  refine ⟨rfl, hchunks, ?_⟩
  simp [ingest_path, selectFiles, hcb, hchunks]

/-- Witness for C6: a single `.exe` file — extension not in the
allow-list — is still ingested. -/
theorem c6_single_file_witness :
    selectFiles defaultCfg
        (.file ⟨"data/x.exe".data, true, some "hello".data, some [1, 2, 3], 0⟩) =
      [⟨"data/x.exe".data, true, some "hello".data, some [1, 2, 3], 0⟩] ∧
      chunkDocs defaultCfg "hello".data (sha1_bytes [1, 2, 3]) ≠ [] ∧
      ingest_path defaultCfg []
          (.file ⟨"data/x.exe".data, true, some "hello".data, some [1, 2, 3], 0⟩) =
        .ok (upsertBatch [] (chunkDocs defaultCfg "hello".data (sha1_bytes [1, 2, 3]))) :=
  c6_single_file_bypasses_filters defaultCfg []
    ⟨"data/x.exe".data, true, some "hello".data, some [1, 2, 3], 0⟩
    "hello".data [1, 2, 3] rfl (by decide) rfl (by decide) (by decide) (by rfl)

/-- Counterexample for C6 as stated: the single file `data/x.exe` has
an extension outside the allow-list, so by the claim nothing may be
upserted for it — yet `ingest_path` upserts its chunk, leaving the docs
collection non-empty. -/
theorem c6_filters_not_applied_counterexample :
    ingest_path defaultCfg []
        (.file ⟨"data/x.exe".data, true, some "hello".data, some [1, 2, 3], 0⟩) =
      .ok [("010203:0".data, "hello".data)] ∧
      defaultCfg.allowed_exts.contains (suffixLower "data/x.exe".data) = false := by
  constructor
  · rfl
  · rfl

/-! ## Grouping lemmas for the duplicate scanner -/

/-- After adding `v` under key `k`, some group keyed `k` contains `v`. -/
theorem addToGroups_mem_self (k v : Str) :
    ∀ acc : List (Str × List Str),
      ∃ g ∈ addToGroups k v acc, g.1 = k ∧ v ∈ g.2 := by
  intro acc
  induction acc with
  | nil => exact ⟨(k, [v]), by simp [addToGroups]⟩
  | cons g0 rest ih =>
    by_cases h : g0.1 = k
    · refine ⟨(g0.1, g0.2 ++ [v]), ?_, h, by simp⟩
      simp [addToGroups, h]
    · obtain ⟨g, hg, hk, hv⟩ := ih
      exact ⟨g, by simp [addToGroups, h, hg], hk, hv⟩

/-- Adding a member never shrinks an existing group. -/
theorem addToGroups_mono (k v : Str) :
    ∀ acc : List (Str × List Str), ∀ g ∈ acc,
      ∃ g2 ∈ addToGroups k v acc, g2.1 = g.1 ∧ ∀ p ∈ g.2, p ∈ g2.2 := by
  intro acc
  induction acc with
  | nil =>
    intro g hg
    cases hg
  | cons g0 rest ih =>
    intro g hg
    by_cases h : g0.1 = k
    · rcases List.mem_cons.mp hg with rfl | hgr
      · exact ⟨(g.1, g.2 ++ [v]), by simp [addToGroups, h], rfl,
          fun p hp => by simp [hp]⟩
      · exact ⟨g, by simp [addToGroups, h, hgr], rfl, fun p hp => hp⟩
    · rcases List.mem_cons.mp hg with rfl | hgr
      · exact ⟨g, by simp [addToGroups, h], rfl, fun p hp => hp⟩
      · obtain ⟨g2, hg2, hk, hsub⟩ := ih g hgr
        exact ⟨g2, by simp [addToGroups, h, hg2], hk, hsub⟩

/-- Every member of a group after an addition either is the added value
under the added key, or was a member of a group with the same key
before. -/
theorem addToGroups_sound (k v : Str) :
    ∀ acc : List (Str × List Str), ∀ g ∈ addToGroups k v acc, ∀ p ∈ g.2,
      (g.1 = k ∧ p = v) ∨ ∃ g0 ∈ acc, g0.1 = g.1 ∧ p ∈ g0.2 := by
  intro acc
  induction acc with
  | nil =>
    intro g hg p hp
    simp only [addToGroups, List.mem_singleton] at hg
    subst hg
    simp only [List.mem_singleton] at hp
    exact Or.inl ⟨rfl, hp⟩
  | cons g0 rest ih =>
    intro g hg p hp
    by_cases h : g0.1 = k
    · simp only [addToGroups, if_pos h] at hg
      rcases List.mem_cons.mp hg with rfl | hgr
      · rcases List.mem_append.mp hp with hp0 | hpv
        · exact Or.inr ⟨g0, by simp, rfl, hp0⟩
        · simp only [List.mem_singleton] at hpv
          exact Or.inl ⟨h, hpv⟩
      · exact Or.inr (by
          obtain ⟨g1, hg1, he, hm⟩ :=
            (⟨g, hgr, rfl, hp⟩ : ∃ g1 ∈ rest, g1.1 = g.1 ∧ p ∈ g1.2)
          exact ⟨g1, List.mem_cons_of_mem _ hg1, he, hm⟩)
    · simp only [addToGroups, if_neg h] at hg
      rcases List.mem_cons.mp hg with rfl | hgr
      · exact Or.inr ⟨g, by simp, rfl, hp⟩
      · rcases ih g hgr p hp with h1 | ⟨g1, hg1, he, hm⟩
        · exact Or.inl h1
        · exact Or.inr ⟨g1, List.mem_cons_of_mem _ hg1, he, hm⟩

/-- The keys present after an addition. -/
theorem addToGroups_keys (k v x : Str) :
    ∀ acc : List (Str × List Str),
      (∃ g ∈ addToGroups k v acc, g.1 = x) ↔ (∃ g ∈ acc, g.1 = x) ∨ x = k := by
  intro acc
  induction acc with
  | nil => simp [addToGroups, eq_comm]
  | cons g0 rest ih =>
    by_cases h : g0.1 = k
    · simp only [addToGroups, if_pos h]
      constructor
      · intro ⟨g, hg, hx⟩
        rcases List.mem_cons.mp hg with rfl | hgr
        · exact Or.inl ⟨g0, by simp, hx⟩
        · exact Or.inl ⟨g, List.mem_cons_of_mem _ hgr, hx⟩
      · intro hor
        rcases hor with ⟨g, hg, hx⟩ | rfl
        · rcases List.mem_cons.mp hg with rfl | hgr
          · exact ⟨(g.1, g.2 ++ [v]), by simp, hx⟩
          · exact ⟨g, by simp [hgr], hx⟩
        · exact ⟨(g0.1, g0.2 ++ [v]), by simp, h⟩
    · simp only [addToGroups, if_neg h]
      constructor
      · intro ⟨g, hg, hx⟩
        rcases List.mem_cons.mp hg with rfl | hgr
        · exact Or.inl ⟨g, by simp, hx⟩
        · rcases ih.mp ⟨g, hgr, hx⟩ with ⟨g1, hg1, hx1⟩ | rfl
          · exact Or.inl ⟨g1, List.mem_cons_of_mem _ hg1, hx1⟩
          · exact Or.inr rfl
      · intro hor
        rcases hor with ⟨g, hg, hx⟩ | rfl
        · rcases List.mem_cons.mp hg with rfl | hgr
          · exact ⟨g, by simp, hx⟩
          · obtain ⟨g1, hg1, hx1⟩ := ih.mpr (Or.inl ⟨g, hgr, hx⟩)
            exact ⟨g1, List.mem_cons_of_mem _ hg1, hx1⟩
        · obtain ⟨g1, hg1, hx1⟩ := ih.mpr (Or.inr rfl)
          exact ⟨g1, List.mem_cons_of_mem _ hg1, hx1⟩

/-- Adding a member keeps the group keys free of duplicates. -/
theorem addToGroups_keys_nodup (k v : Str) :
    ∀ acc : List (Str × List Str), (acc.map Prod.fst).Nodup →
      ((addToGroups k v acc).map Prod.fst).Nodup := by
  intro acc
  induction acc with
  | nil =>
    intro _
    simp [addToGroups]
  | cons g0 rest ih =>
    intro hnd
    simp only [List.map_cons, List.nodup_cons] at hnd
    by_cases h : g0.1 = k
    · simp only [addToGroups, if_pos h, List.map_cons, List.nodup_cons]
      exact ⟨hnd.1, hnd.2⟩
    · simp only [addToGroups, if_neg h, List.map_cons, List.nodup_cons]
      refine ⟨?_, ih hnd.2⟩
      intro hmem
      obtain ⟨g, hg, hx⟩ := List.exists_of_mem_map hmem
      rcases (addToGroups_keys k v g0.1 rest).mp ⟨g, hg, hx⟩ with
        ⟨g1, hg1, hx1⟩ | hx1
      · exact hnd.1 (List.mem_map.mpr ⟨g1, hg1, hx1⟩)
      · exact h hx1

/-- Two groups with the same key in a key-nodup group list are one
group. -/
theorem groups_key_unique (l : List (Str × List Str))
    (hnd : (l.map Prod.fst).Nodup) :
    ∀ g1 ∈ l, ∀ g2 ∈ l, g1.1 = g2.1 → g1 = g2 := by
  induction l with
  | nil =>
    intro g1 hg1
    cases hg1
  | cons g0 rest ih =>
    simp only [List.map_cons, List.nodup_cons] at hnd
    intro g1 hg1 g2 hg2 hk
    rcases List.mem_cons.mp hg1 with rfl | hr1 <;>
      rcases List.mem_cons.mp hg2 with rfl | hr2
    · rfl
    · exact absurd (List.mem_map.mpr ⟨g2, hr2, hk.symm⟩) hnd.1
    · exact absurd (List.mem_map.mpr ⟨g1, hr1, hk⟩) hnd.1
    · exact ih hnd.2 g1 hr1 g2 hr2 hk

/-- A group present in the accumulator persists (key and members) over
the rest of a grouping fold. -/
theorem foldGroups_persist (keyOf : FSFile → Option Str) (fs : List FSFile) :
    ∀ acc : List (Str × List Str), ∀ g ∈ acc,
      ∃ g2 ∈ fs.foldl
          (fun acc f =>
            match keyOf f with
            | some k => addToGroups k f.path acc
            | none => acc) acc,
        g2.1 = g.1 ∧ ∀ p ∈ g.2, p ∈ g2.2 := by
  induction fs with
  | nil =>
    intro acc g hg
    exact ⟨g, hg, rfl, fun p hp => hp⟩
  | cons f rest ih =>
    intro acc g hg
    simp only [List.foldl_cons]
    cases hk : keyOf f with
    | none => exact ih acc g hg
    | some k =>
      obtain ⟨g1, hg1, he1, hm1⟩ := addToGroups_mono k f.path acc g hg
      obtain ⟨g2, hg2, he2, hm2⟩ := ih (addToGroups k f.path acc) g1 hg1
      exact ⟨g2, hg2, he2.trans he1, fun p hp => hm2 p (hm1 p hp)⟩

/-- The group keys of a grouping fold are free of duplicates. -/
theorem foldGroups_keys_nodup (keyOf : FSFile → Option Str) (fs : List FSFile) :
    ∀ acc : List (Str × List Str), (acc.map Prod.fst).Nodup →
      ((fs.foldl
          (fun acc f =>
            match keyOf f with
            | some k => addToGroups k f.path acc
            | none => acc) acc).map Prod.fst).Nodup := by
  induction fs with
  | nil =>
    intro acc h
    exact h
  | cons f rest ih =>
    intro acc h
    simp only [List.foldl_cons]
    cases hk : keyOf f with
    | none => exact ih acc h
    | some k => exact ih (addToGroups k f.path acc) (addToGroups_keys_nodup k f.path acc h)

/-- Every keyed file of the walk ends up in a group bearing its key. -/
theorem foldGroups_mem (keyOf : FSFile → Option Str) (fs : List FSFile) :
    ∀ acc : List (Str × List Str), ∀ f ∈ fs, ∀ k, keyOf f = some k →
      ∃ g ∈ fs.foldl
          (fun acc f =>
            match keyOf f with
            | some k => addToGroups k f.path acc
            | none => acc) acc,
        g.1 = k ∧ f.path ∈ g.2 := by
  induction fs with
  | nil =>
    intro acc f hf
    cases hf
  | cons f0 rest ih =>
    intro acc f hf k hk
    simp only [List.foldl_cons]
    rcases List.mem_cons.mp hf with rfl | hfr
    · rw [hk]
      obtain ⟨g, hg, he, hm⟩ := addToGroups_mem_self k f.path acc
      obtain ⟨g2, hg2, he2, hm2⟩ :=
        foldGroups_persist keyOf rest (addToGroups k f.path acc) g hg
      exact ⟨g2, hg2, he2.trans he, hm2 _ hm⟩
    · cases hk0 : keyOf f0 with
      | none => exact ih acc f hfr k hk
      | some k0 => exact ih (addToGroups k0 f0.path acc) f hfr k hk

/-- Every group member of a grouping fold that starts from an empty
accumulator comes from a file of the walk whose key is the group's. -/
theorem foldGroups_sound (keyOf : FSFile → Option Str) (fs : List FSFile) :
    ∀ acc : List (Str × List Str),
      ∀ g ∈ fs.foldl
          (fun acc f =>
            match keyOf f with
            | some k => addToGroups k f.path acc
            | none => acc) acc,
      ∀ p ∈ g.2,
        (∃ g0 ∈ acc, g0.1 = g.1 ∧ p ∈ g0.2) ∨
          ∃ f ∈ fs, keyOf f = some g.1 ∧ f.path = p := by
  induction fs with
  | nil =>
    intro acc g hg p hp
    exact Or.inl ⟨g, hg, rfl, hp⟩
  | cons f0 rest ih =>
    intro acc g hg p hp
    simp only [List.foldl_cons] at hg
    cases hk0 : keyOf f0 with
    | none =>
      rw [hk0] at hg
      rcases ih acc g hg p hp with h1 | ⟨f, hf, hfk, hfp⟩
      · exact Or.inl h1
      · exact Or.inr ⟨f, List.mem_cons_of_mem _ hf, hfk, hfp⟩
    | some k0 =>
      rw [hk0] at hg
      rcases ih (addToGroups k0 f0.path acc) g hg p hp with ⟨g0, hg0, he0, hm0⟩ | hfile
      · rcases addToGroups_sound k0 f0.path acc g0 hg0 p hm0 with ⟨hke, hpe⟩ | ⟨g1, hg1, he1, hm1⟩
        · exact Or.inr ⟨f0, by simp, by rw [hk0, ← he0, hke], hpe.symm⟩
        · exact Or.inl ⟨g1, hg1, he1.trans he0, hm1⟩
      · obtain ⟨f, hf, hfk, hfp⟩ := hfile
        exact Or.inr ⟨f, List.mem_cons_of_mem _ hf, hfk, hfp⟩

/-! ## Digest injectivity (the idealised collision-freedom of SHA-1) -/

/-- Hex digits of distinct values in `0..15` are distinct. -/
theorem hexDigit_inj (a b : Nat) (ha : a < 16) (hb : b < 16)
    (h : hexDigit a = hexDigit b) : a = b := by
  interval_cases a <;> interval_cases b <;> revert h <;> decide

/-- The two-digit encoding of a byte is injective. -/
theorem byteHex_inj (a b : Nat) (ha : a < 256) (hb : b < 256)
    (h : byteHex a = byteHex b) : a = b := by
  simp only [byteHex, List.cons.injEq, and_true] at h
  have e1 := hexDigit_inj _ _ (Nat.mod_lt _ (by norm_num)) (Nat.mod_lt _ (by norm_num))
    h.1
  have e2 := hexDigit_inj _ _ (Nat.mod_lt _ (by norm_num)) (Nat.mod_lt _ (by norm_num))
    h.2
  omega

/-- The modelled digest is injective on byte strings. -/
theorem sha1_bytes_inj (l1 : List Nat) :
    ∀ l2 : List Nat, (∀ x ∈ l1, x < 256) → (∀ x ∈ l2, x < 256) →
      sha1_bytes l1 = sha1_bytes l2 → l1 = l2 := by
  induction l1 with
  | nil =>
    intro l2 _ _ h
    cases l2 with
    | nil => rfl
    | cons b bs => simp [sha1_bytes, byteHex] at h
  | cons a as ih =>
    intro l2 h1 h2 h
    cases l2 with
    | nil => simp [sha1_bytes, byteHex] at h
    | cons b bs =>
      simp only [sha1_bytes, List.map_cons, List.flatten_cons] at h
      have hlen : (byteHex a).length = (byteHex b).length := by simp [byteHex]
      obtain ⟨hh, ht⟩ := List.append_inj h hlen
      have hab : a = b := byteHex_inj a b (h1 a (by simp)) (h2 b (by simp)) hh
      subst hab
      have htl := ih bs (fun x hx => h1 x (by simp [hx]))
        (fun x hx => h2 x (by simp [hx])) ht
      rw [htl]

/-- A list holding two distinct elements has at least two entries. -/
theorem two_mem_le_length (l : List Str) (p q : Str) (hne : p ≠ q)
    (hp : p ∈ l) (hq : q ∈ l) : 2 ≤ l.length := by
  cases l with
  | nil => cases hp
  | cons a rest =>
    cases rest with
    | nil =>
      simp only [List.mem_singleton] at hp hq
      exact absurd (hp.trans hq.symm) hne
    | cons b r2 =>
      simp only [List.length_cons]
      omega

/-- Two keyed files with the same key and distinct paths end up
together in one group bearing that key, a group of at least two
members. -/
theorem foldGroups_pair (keyOf : FSFile → Option Str) (fs : List FSFile)
    (A B : FSFile) (k : Str) (hA : A ∈ fs) (hB : B ∈ fs)
    (hkA : keyOf A = some k) (hkB : keyOf B = some k) (hpne : A.path ≠ B.path) :
    ∃ g ∈ foldGroups keyOf fs, g.1 = k ∧ A.path ∈ g.2 ∧ B.path ∈ g.2 ∧
      2 ≤ g.2.length := by
  obtain ⟨gA, hgA, heA, hmA⟩ := foldGroups_mem keyOf fs [] A hA k hkA
  obtain ⟨gB, hgB, heB, hmB⟩ := foldGroups_mem keyOf fs [] B hB k hkB
  have hnd := foldGroups_keys_nodup keyOf fs [] (by simp)
  have heq : gA = gB := groups_key_unique _ hnd gA hgA gB hgB (heA.trans heB.symm)
  subst heq
  exact ⟨gA, hgA, heA, hmA, hmB, two_mem_le_length _ _ _ hpne hmA hmB⟩

/-- C7.  Duplicate scanning: two eligible files with identical bytes
and distinct paths are reported together in one `exact_dupes` group;
two eligible files with the same basename but different bytes are
reported together in one `filename_dupes` group and in no common
`exact_dupes` group; and every reported group of either kind has at
least two members.  (Path uniqueness of the walk and byte-valued
contents are the file-system facts the scan runs under; distinct
contents yield distinct digests by the idealised injectivity of the
modelled SHA-1.) -/
theorem c7_scan_dupes_grouping (cfg : Cfg) (fs : List FSFile) (A B : FSFile)
    (ba bb : List Nat)
    (hA : A ∈ fs) (hB : B ∈ fs) (hpne : A.path ≠ B.path)
    (hAe : eligibleFile cfg A = true) (hBe : eligibleFile cfg B = true)
    (hAb : A.bytes = some ba) (hBb : B.bytes = some bb)
    (hva : ∀ x ∈ ba, x < 256) (hvb : ∀ x ∈ bb, x < 256)
    (hAu : ∀ f ∈ fs, f.path = A.path → f = A)
    (hBu : ∀ f ∈ fs, f.path = B.path → f = B) :
    (ba = bb → ∃ g ∈ exact_dupes cfg fs, A.path ∈ g.2 ∧ B.path ∈ g.2) ∧
      (basename A.path = basename B.path → ba ≠ bb →
        (∃ g ∈ filename_dupes cfg fs, A.path ∈ g.2 ∧ B.path ∈ g.2) ∧
          ¬∃ g ∈ exact_dupes cfg fs, A.path ∈ g.2 ∧ B.path ∈ g.2) ∧
      (∀ g : Str × List Str,
        g ∈ filename_dupes cfg fs ∨ g ∈ exact_dupes cfg fs → 2 ≤ g.2.length) := by
  have hkeyA : (fun f => if eligibleFile cfg f then (f.bytes.map sha1_bytes) else none)
      A = some (sha1_bytes ba) := by
    simp [hAe, hAb]
  have hkeyB : (fun f => if eligibleFile cfg f then (f.bytes.map sha1_bytes) else none)
      B = some (sha1_bytes bb) := by
    simp [hBe, hBb]
  refine ⟨?_, ?_, ?_⟩
  · intro hbytes
    obtain ⟨g, hg, hgk, hmA, hmB, hglen⟩ :=
      foldGroups_pair (fun f => if eligibleFile cfg f then (f.bytes.map sha1_bytes)
        else none) fs A B (sha1_bytes ba) hA hB hkeyA (by rw [hkeyB, hbytes]) hpne
    refine ⟨g, ?_, hmA, hmB⟩
    exact List.mem_filter.mpr ⟨hg, by simpa using hglen⟩
  · intro hbase hbytes
    constructor
    · obtain ⟨g, hg, hgk, hmA, hmB, hglen⟩ :=
        foldGroups_pair (fun f => if eligibleFile cfg f then some (basename f.path)
          else none) fs A B (basename A.path) hA hB (by simp [hAe])
          (by simp [hBe, hbase]) hpne
      refine ⟨g, ?_, hmA, hmB⟩
      exact List.mem_filter.mpr ⟨hg, by simpa using hglen⟩
    · rintro ⟨g, hg, hmA, hmB⟩
      have hgrp : g ∈ hash_to_paths cfg fs := (List.mem_filter.mp hg).1
      have hsA := foldGroups_sound (fun f => if eligibleFile cfg f then
        (f.bytes.map sha1_bytes) else none) fs [] g hgrp A.path hmA
      have hsB := foldGroups_sound (fun f => if eligibleFile cfg f then
        (f.bytes.map sha1_bytes) else none) fs [] g hgrp B.path hmB
      rcases hsA with ⟨g0, hg0, _⟩ | ⟨fA, hfA, hfAk, hfAp⟩
      · cases hg0
      rcases hsB with ⟨g0, hg0, _⟩ | ⟨fB, hfB, hfBk, hfBp⟩
      · cases hg0
      have heqA : fA = A := hAu fA hfA hfAp
      have heqB : fB = B := hBu fB hfB hfBp
      subst heqA
      subst heqB
      rw [hkeyA] at hfAk
      rw [hkeyB] at hfBk
      have : sha1_bytes ba = sha1_bytes bb := by
        have h1 : sha1_bytes ba = g.1 := by injection hfAk
        have h2 : sha1_bytes bb = g.1 := by injection hfBk
        rw [h1, h2]
      exact hbytes (sha1_bytes_inj ba bb hva hvb this)
  · intro g hg
    rcases hg with hg | hg
    · have := (List.mem_filter.mp hg).2
      simpa using this
    · have := (List.mem_filter.mp hg).2
      simpa using this

/-- Witness for C7: `data/a.txt` and `data/sub/b.txt` have identical
bytes `[1, 2]` and different basenames. -/
theorem c7_scan_dupes_witness :
    ([1, 2] = ([1, 2] : List Nat) →
      ∃ g ∈ exact_dupes defaultCfg
          [⟨"data/a.txt".data, true, some "x".data, some [1, 2], 0⟩,
           ⟨"data/sub/b.txt".data, true, some "y".data, some [1, 2], 0⟩],
        "data/a.txt".data ∈ g.2 ∧ "data/sub/b.txt".data ∈ g.2) ∧
      (basename "data/a.txt".data = basename "data/sub/b.txt".data →
        [1, 2] ≠ ([1, 2] : List Nat) →
        (∃ g ∈ filename_dupes defaultCfg
            [⟨"data/a.txt".data, true, some "x".data, some [1, 2], 0⟩,
             ⟨"data/sub/b.txt".data, true, some "y".data, some [1, 2], 0⟩],
          "data/a.txt".data ∈ g.2 ∧ "data/sub/b.txt".data ∈ g.2) ∧
          ¬∃ g ∈ exact_dupes defaultCfg
              [⟨"data/a.txt".data, true, some "x".data, some [1, 2], 0⟩,
               ⟨"data/sub/b.txt".data, true, some "y".data, some [1, 2], 0⟩],
            "data/a.txt".data ∈ g.2 ∧ "data/sub/b.txt".data ∈ g.2) ∧
      (∀ g : Str × List Str,
        g ∈ filename_dupes defaultCfg
            [⟨"data/a.txt".data, true, some "x".data, some [1, 2], 0⟩,
             ⟨"data/sub/b.txt".data, true, some "y".data, some [1, 2], 0⟩] ∨
          g ∈ exact_dupes defaultCfg
            [⟨"data/a.txt".data, true, some "x".data, some [1, 2], 0⟩,
             ⟨"data/sub/b.txt".data, true, some "y".data, some [1, 2], 0⟩] →
        2 ≤ g.2.length) :=
  c7_scan_dupes_grouping defaultCfg
    [⟨"data/a.txt".data, true, some "x".data, some [1, 2], 0⟩,
     ⟨"data/sub/b.txt".data, true, some "y".data, some [1, 2], 0⟩]
    ⟨"data/a.txt".data, true, some "x".data, some [1, 2], 0⟩
    ⟨"data/sub/b.txt".data, true, some "y".data, some [1, 2], 0⟩
    [1, 2] [1, 2] (by decide) (by decide) (by decide) (by decide) (by decide)
    rfl rfl (by decide) (by decide) (by decide) (by decide)

/-! ## Consolidation lemmas -/

/-- Stable insertion permutes. -/
theorem insertByTime_perm (x : Str × Int) (l : List (Str × Int)) :
    (insertByTime x l).Perm (x :: l) := by
  induction l with
  | nil => exact List.Perm.refl _
  | cons y rest ih =>
    by_cases h : y.2 < x.2
    · simp only [insertByTime, if_pos h]
      exact (ih.cons y).trans (List.Perm.swap x y rest)
    · simp only [insertByTime, if_neg h]
      exact List.Perm.refl _

/-- The stable sort permutes its input. -/
theorem sortByTime_perm (l : List (Str × Int)) : (sortByTime l).Perm l := by
  induction l with
  | nil => exact List.Perm.refl _
  | cons x rest ih =>
    simp only [sortByTime, List.foldr_cons]
    exact (insertByTime_perm x _).trans (ih.cons x)

/-- The defaulted last element of a non-empty list is a member. -/
theorem getLastD_mem (l : List (Str × Int)) (d : Str × Int) (h : l ≠ []) :
    l.getLastD d ∈ l := by
  induction l generalizing d with
  | nil => exact absurd rfl h
  | cons a rest ih =>
    rw [List.getLastD_cons]
    cases hr : rest with
    | nil =>
      subst hr
      simp [List.getLastD]
    | cons b r2 =>
      subst hr
      exact List.mem_cons_of_mem a (ih a (by simp))

/-- The defaulted head of a non-empty list is a member. -/
theorem headD_mem (l : List Str) (d : Str) (h : l ≠ []) : l.headD d ∈ l := by
  cases l with
  | nil => exact absurd rfl h
  | cons a rest => simp

/-- On a duplicate-free list, dropping every copy of `a` by filtering
is erasing `a`. -/
theorem filter_ne_eq_erase (l : List Str) (a : Str) (hnd : l.Nodup) :
    l.filter (fun p => p ≠ a) = l.erase a := by
  rw [hnd.erase_eq_filter a]
  exact List.filter_congr (fun x _ => by by_cases h : x = a <;> simp [h])

/-- C8.  Strategy selection of the consolidation planner on a group of
three paths with strictly increasing modification times: `newest` keeps
the path with the greatest mtime and proposes removing the other two,
`oldest` keeps the path with the least mtime, and `keep_first` keeps
the first-enumerated path whatever the mtimes are. -/
theorem c8_consolidate_strategy_selection (mtime : Str → Int) (p1 p2 p3 : Str)
    (h12 : mtime p1 < mtime p2) (h23 : mtime p2 < mtime p3) :
    consolidate_one "newest".data mtime [p1, p2, p3] = (p3, [p1, p2]) ∧
      consolidate_one "oldest".data mtime [p1, p2, p3] = (p1, [p2, p3]) ∧
      ∀ m2 : Str → Int, (consolidate_one "keep_first".data m2 [p1, p2, p3]).1 = p1 := by
  have h32 : ¬ (mtime p3 < mtime p2) := by omega
  have h21 : ¬ (mtime p2 < mtime p1) := by omega
  have hsort : sortByTime [(p1, mtime p1), (p2, mtime p2), (p3, mtime p3)] =
      [(p1, mtime p1), (p2, mtime p2), (p3, mtime p3)] := by
    simp [sortByTime, insertByTime, h32, h21]
  have hne13 : p1 ≠ p3 := by
    intro h
    rw [h] at h12
    omega
  have hne23 : p2 ≠ p3 := by
    intro h
    rw [h] at h23
    omega
  have hne21 : p2 ≠ p1 := by
    intro h
    rw [h] at h12
    omega
  have hne31 : p3 ≠ p1 := fun h => hne13 h.symm
  refine ⟨?_, ?_, ?_⟩
  · simp +decide [consolidate_one, hsort, List.getLastD_cons, List.getLastD,
      List.filter_cons, hne13, hne23]
  · simp +decide [consolidate_one, hsort, List.filter_cons, hne21, hne31]
  · intro m2
    simp +decide [consolidate_one]

/-- Witness for C8 with mtimes 1 < 2 < 3. -/
theorem c8_consolidate_strategy_witness :
    consolidate_one "newest".data (fun p => (p.length : Int))
        ["a".data, "bb".data, "ccc".data] = ("ccc".data, ["a".data, "bb".data]) ∧
      consolidate_one "oldest".data (fun p => (p.length : Int))
        ["a".data, "bb".data, "ccc".data] = ("a".data, ["bb".data, "ccc".data]) ∧
      ∀ m2 : Str → Int,
        (consolidate_one "keep_first".data m2 ["a".data, "bb".data, "ccc".data]).1 =
          "a".data :=
  c8_consolidate_strategy_selection (fun p => (p.length : Int))
    "a".data "bb".data "ccc".data (by decide) (by decide)

/-- C10.  For every strategy and every non-empty, duplicate-free
filename group, the planned action keeps a member of the group, its
removal list is exactly the group's other paths, and the kept path is
never in the removal list — executing the whole plan leaves a surviving
copy.  The final conjunct ties the per-group action to the `actions`
list `consolidate_files` builds. -/
theorem c10_consolidate_keeps_a_member (strategy : Str) (mtime : Str → Int)
    (name : Str) (paths : List Str) (hne : paths ≠ []) (hnd : paths.Nodup) :
    (consolidate_one strategy mtime paths).1 ∈ paths ∧
      (consolidate_one strategy mtime paths).2 =
        paths.erase (consolidate_one strategy mtime paths).1 ∧
      (consolidate_one strategy mtime paths).1 ∉ (consolidate_one strategy mtime paths).2 ∧
      consolidate_files strategy mtime [(name, paths)] =
        [(name, consolidate_one strategy mtime paths)] := by
  have hkeep : (consolidate_one strategy mtime paths).1 ∈ paths := by
    simp only [consolidate_one]
    by_cases hn : strategy = "newest".data
    · rw [if_pos hn]
      have hlne : sortByTime (paths.map fun p => (p, mtime p)) ≠ [] := by
        intro h
        have hp := sortByTime_perm (paths.map fun p => (p, mtime p))
        rw [h] at hp
        have := hp.symm.length_eq
        simp at this
        exact hne this
      have hmem := getLastD_mem _ (([], 0) : Str × Int) hlne
      have hmem2 := (sortByTime_perm (paths.map fun p => (p, mtime p))).mem_iff.mp hmem
      obtain ⟨q, hq, he⟩ := List.mem_map.mp hmem2
      rw [← he]
      exact hq
    · rw [if_neg hn]
      by_cases ho : strategy = "oldest".data
      · rw [if_pos ho]
        have hlne : sortByTime (paths.map fun p => (p, mtime p)) ≠ [] := by
          intro h
          have hp := sortByTime_perm (paths.map fun p => (p, mtime p))
          rw [h] at hp
          have := hp.symm.length_eq
          simp at this
          exact hne this
        cases hs : sortByTime (paths.map fun p => (p, mtime p)) with
        | nil => exact absurd hs hlne
        | cons q rest =>
          have hmem : q ∈ sortByTime (paths.map fun p => (p, mtime p)) := by
            rw [hs]
            simp
          have hmem2 := (sortByTime_perm (paths.map fun p => (p, mtime p))).mem_iff.mp hmem
          obtain ⟨r, hr, he⟩ := List.mem_map.mp hmem2
          simp only [hs, List.headD]
          rw [← he]
          exact hr
      · rw [if_neg ho]
        exact headD_mem paths [] hne
  refine ⟨hkeep, ?_, ?_, rfl⟩
  · exact filter_ne_eq_erase paths _ hnd
  · intro hmem
    have hthis := List.of_mem_filter hmem
    simp only [decide_eq_true_eq] at hthis
    exact hthis rfl

/-- Witness for C10 on a concrete two-path group. -/
theorem c10_consolidate_keeps_witness :
    (consolidate_one "newest".data (fun _ => (0 : Int)) ["a".data, "b".data]).1 ∈
        ["a".data, "b".data] ∧
      (consolidate_one "newest".data (fun _ => (0 : Int)) ["a".data, "b".data]).2 =
        (["a".data, "b".data]).erase
          (consolidate_one "newest".data (fun _ => (0 : Int)) ["a".data, "b".data]).1 ∧
      (consolidate_one "newest".data (fun _ => (0 : Int)) ["a".data, "b".data]).1 ∉
        (consolidate_one "newest".data (fun _ => (0 : Int)) ["a".data, "b".data]).2 ∧
      consolidate_files "newest".data (fun _ => (0 : Int))
          [("n".data, ["a".data, "b".data])] =
        [("n".data, consolidate_one "newest".data (fun _ => (0 : Int))
          ["a".data, "b".data])] :=
  c10_consolidate_keeps_a_member "newest".data (fun _ => (0 : Int)) "n".data
    ["a".data, "b".data] (by decide) (by decide)

end AlterEgo
